import Mathlib

/-!
# Verification of the secondary-structure predictor core

Shallow embedding of the Nussinov-style pairing engine
(`src/src/structure_predictor.py`), the knot analyzer
(`src/knot_analyzer.py`), the window scanner and the window aggregator,
together with proofs and refutations of the frozen specification claims.

Conventions of the embedding:
* sequences and structures are `List Char`;
* the Python float score matrix holds only non-negative integers, so matrix
  entries are `Nat`; knot-analyzer reals are `ℚ` (exact arithmetic);
* Python code that can raise returns `Option`/`Except` here;
* recursion that Python drives with loops or unbounded recursion is embedded
  with explicit fuel so that every definition is executable by the kernel;
* Python's negative-index wraparound (reachable only as `dp[0][-1]` inside the
  traceback) is modelled explicitly by `pyIdx`.
-/

namespace SSP

/-- `self.bp_complement` dictionary: `{'A':'T','T':'A','G':'C','C':'G','U':'A'}`;
`dict.get` returns `none` off the table. -/
def bpComplement (c : Char) : Option Char :=
  if c = 'A' then some 'T'
  else if c = 'T' then some 'A'
  else if c = 'G' then some 'C'
  else if c = 'C' then some 'G'
  else if c = 'U' then some 'A'
  else none

/-- `can_pair(base1, base2)`: `base2 == self.bp_complement.get(base1, None)`;
comparison with Python `None` is `False`. -/
def canPair (b1 b2 : Char) : Bool :=
  match bpComplement b1 with
  | some c => b2 == c
  | none => false

/-- Sequence indexing `sequence[k]`; the default is never read at reachable
indices (a `*` is outside the pairing table, so it can never pair anyway). -/
def sGet (s : List Char) (k : Nat) : Char := s.getD k '*'

/-- Fuel-driven form of the `nussinov_algorithm` fill (with the default
`min_loop = 1` used by `predict_structure`): entries with `j ≤ i` stay `0`;
an entry of length ≥ 2 starts at `dp[i][j-1]` and is maxed over
`k in range(i, j)` with `can_pair(sequence[i], sequence[k])` against
`1 + (dp[i+1][k-1] if i+1 <= k-1 else 0) + (dp[k+1][j] if k+1 <= j else 0)`. -/
def nussGo (s : List Char) : Nat → Nat → Nat → Nat
  | 0, _, _ => 0
  | fuel + 1, i, j =>
    if j ≤ i then 0
    else
      (List.range' i (j - i)).foldl
        (fun acc k =>
          if canPair (sGet s i) (sGet s k) then
            max acc (1 + (if i + 1 ≤ k - 1 then nussGo s fuel (i + 1) (k - 1) else 0)
                       + (if k + 1 ≤ j then nussGo s fuel (k + 1) j else 0))
          else acc)
        (nussGo s fuel i (j - 1))

/-- `nussinov_algorithm(sequence)[i][j]` (score matrix entry). -/
def nussinov (s : List Char) (i j : Nat) : Nat :=
  nussGo s (j + 1 - i) i j

/-- Python (NumPy) index wraparound: a negative index counts from the end of
the axis.  The only reachable negative read is `dp[0][-1]`. -/
def pyIdx (n : Nat) (x : Int) : Nat :=
  if x < 0 then (x + n).toNat else x.toNat

/-- Score-matrix read inside the traceback, with the Python index semantics. -/
def dpRead (s : List Char) (i j : Int) : Nat :=
  nussinov s (pyIdx s.length i) (pyIdx s.length j)

/-- The score a pairing `(i, k)` is checked against inside the traceback:
`1 + (dp[i+1][k-1] if i+1 <= k-1 else 0) + (dp[k+1][j] if k+1 <= j else 0)`. -/
def tbScore (s : List Char) (i j k : Int) : Nat :=
  1 + (if i + 1 ≤ k - 1 then dpRead s (i + 1) (k - 1) else 0)
    + (if k + 1 ≤ j then dpRead s (k + 1) j else 0)

/-- The `for k in range(i, j)` search of `traceback_recursive`: the first `k`
with `can_pair(sequence[i], sequence[k])` and `dp[i][j] == score`. -/
def findK (s : List Char) (i j : Int) : Option Int :=
  ((List.range (j - i).toNat).map (fun t : Nat => i + (t : Int))).find?
    (fun k => canPair (sGet s (pyIdx s.length i)) (sGet s (pyIdx s.length k))
      && dpRead s i j == tbScore s i j k)

/-- Fuel-driven form of `traceback_recursive(i, j)`, returning the list of
pairs written into `structure` (each pair sets `structure[i] = '('` and
`structure[k] = ')'`), in emission order.  Indices are `Int` because Python
recurses into `(i, j-1)` down to `j = -1`. -/
def tbGo (s : List Char) : Nat → Int → Int → List (Int × Int)
  | 0, _, _ => []
  | fuel + 1, i, j =>
    if i > j then []
    else if dpRead s i j == dpRead s i (j - 1) then tbGo s fuel i (j - 1)
    else
      match findK s i j with
      | some k => (i, k) :: (tbGo s fuel (i + 1) (k - 1) ++ tbGo s fuel (k + 1) j)
      | none => []

/-- The pairs emitted by `traceback_recursive(i, j)`. -/
def tbPairs (s : List Char) (i j : Int) : List (Int × Int) :=
  tbGo s (j - i + 1).toNat i j

/-- Sequential in-place writes `structure[pos] = ch` on the Python list. -/
def applyWrites (init : List Char) (ws : List (Nat × Char)) : List Char :=
  ws.foldl (fun l w => l.set w.1 w.2) init

/-- The write list generated by the emitted pairs, in temporal order. -/
def pairWrites (ps : List (Int × Int)) : List (Nat × Char) :=
  ps.flatMap (fun p => [(p.1.toNat, '('), (p.2.toNat, ')')])

/-- `traceback(sequence, dp, i, j)`: `'.' * (j - i + 1)` when `i > j`, else a
list of `len(sequence)` dots mutated by the recursive pair emission. -/
def traceback (s : List Char) (i j : Int) : List Char :=
  if i > j then List.replicate (j - i + 1).toNat '.'
  else applyWrites (List.replicate s.length '.') (pairWrites (tbPairs s i j))

/-- Result dictionary of `predict_structure` (the transient `score_matrix`
entry is available as `nussinov` itself). -/
structure PredResult where
  sequence : List Char
  structure' : List Char
  base_pairs : Nat
  length : Nat
deriving Repr, DecidableEq

/-- `predict_structure(sequence)`: runs the fill and the traceback, then reads
`int(dp[0][len(sequence) - 1])`.  On the empty sequence that read indexes row 0
of a 0×0 array and raises `IndexError`, hence `none`. -/
def predictStructure (s : List Char) : Option PredResult :=
  if s.length = 0 then none
  else
    some { sequence := s
           structure' := traceback s 0 ((s.length : Int) - 1)
           base_pairs := nussinov s 0 (s.length - 1)
           length := s.length }

/-! ## Knot analyzer (`src/knot_analyzer.py`) -/

/-- Configuration constants from `src/src/config.py`. -/
def WRITHE_THRESHOLD : ℚ := 8
def CROSSING_NUMBER_THRESHOLD : Nat := 2

/-- One step of the `_get_base_pairs` loop: on `'('` push the position, on
`')'` with a non-empty stack pop `p` and append `(p, pos)`. -/
def gbpStep (st : List (Nat × Nat) × List Nat) (x : Nat × Char) :
    List (Nat × Nat) × List Nat :=
  if x.2 = '(' then (st.1, x.1 :: st.2)
  else if x.2 = ')' then
    match st.2 with
    | p :: rest => (st.1 ++ [(p, x.1)], rest)
    | [] => st
  else st

/-- The `(pairs, stack)` state after `_get_base_pairs`'s loop. -/
def gbpRun (structure' : List Char) : List (Nat × Nat) × List Nat :=
  structure'.enum.foldl gbpStep ([], [])

/-- Python tuple ordering for `sorted(pairs)` (lexicographic). -/
def pairLE (a b : Nat × Nat) : Bool :=
  decide (a.1 < b.1 ∨ (a.1 = b.1 ∧ a.2 ≤ b.2))

/-- `_get_base_pairs(structure)`: the sorted pair list from the stack parse. -/
def getBasePairs (structure' : List Char) : List (Nat × Nat) :=
  (gbpRun structure').1.mergeSort pairLE

/-- `np.sign` on the integer depth difference, as a rational contribution
(`np.sign(d) if d != 0 else 0`, which is `sign(d)` in every case). -/
def writheSign (d : Int) : ℚ :=
  if 0 < d then 1 else if d < 0 then -1 else 0

/-- One step of `compute_writhe`: on `'('` push `len(stack)`; on `')'` with a
non-empty stack, pop `r` and add `sign(len(stack) - 1 - r)` (0 when the
difference is 0) to the running total. -/
def writheStep (st : ℚ × List Nat) (c : Char) : ℚ × List Nat :=
  if c = '(' then (st.1, st.2.length :: st.2)
  else if c = ')' then
    match st.2 with
    | r :: rest => (st.1 + writheSign ((st.2.length : Int) - 1 - (r : Int)), rest)
    | [] => st
  else st

/-- `compute_writhe(structure)`. -/
def computeWrithe (structure' : List Char) : ℚ :=
  (structure'.foldl writheStep (0, [])).1

/-- The crossing test of `identify_crossing_patterns`:
`p1_i < p2_i < p1_j < p2_j or p2_i < p1_i < p2_j < p1_j`. -/
def crossB (p q : Nat × Nat) : Bool :=
  decide ((p.1 < q.1 ∧ q.1 < p.2 ∧ p.2 < q.2) ∨ (q.1 < p.1 ∧ p.1 < q.2 ∧ q.2 < p.2))

/-- The double loop of `identify_crossing_patterns`: every `p1` against every
later `p2`, emitting `(min(p1_i, p2_i), max(p1_i, p2_i))` on a crossing. -/
def crossingsOf : List (Nat × Nat) → List (Nat × Nat)
  | [] => []
  | p :: rest =>
    ((rest.filter (crossB p)).map (fun q => (min p.1 q.1, max p.1 q.1)))
      ++ crossingsOf rest

/-- `identify_crossing_patterns(structure)`. -/
def identifyCrossingPatterns (structure' : List Char) : List (Nat × Nat) :=
  crossingsOf (getBasePairs structure')

/-- One step of `_calc_nesting_complexity`'s loop over
`(depth, max_depth, changes, prev)`. -/
def cncStep (st : Int × Int × Nat × Int) (c : Char) : Int × Int × Nat × Int :=
  let depth := st.1 + (if c = '(' then 1 else if c = ')' then -1 else 0)
  (depth, max st.2.1 depth, st.2.2.1 + (if depth = st.2.2.2 then 0 else 1), depth)

/-- `_calc_nesting_complexity(structure)`:
`min(max_depth/10, 1) * 0.6 + min(changes/len, 1) * 0.4`, and 0 when empty. -/
def calcNestingComplexity (structure' : List Char) : ℚ :=
  if structure' = [] then 0
  else
    let st := structure'.foldl cncStep (0, 0, 0, 0)
    min ((st.2.1 : ℚ) / 10) 1 * (6 / 10) +
      min ((st.2.2.1 : ℚ) / (structure'.length : ℚ)) 1 * (4 / 10)

/-- The boolean `knot_prone` expression of `detect_knots`:
`abs(writhe) >= writhe_threshold or crossing_count >= crossing_threshold`. -/
def knotProneOf (writheThreshold : ℚ) (crossingThreshold : Nat)
    (writhe : ℚ) (crossingCount : Nat) : Bool :=
  decide (writheThreshold ≤ |writhe|) || decide (crossingThreshold ≤ crossingCount)

/-- The dictionary returned by `detect_knots`. -/
structure KnotRecord where
  writhe : ℚ
  crossing_count : Nat
  crossing_positions : List (Nat × Nat)
  linking_number : ℚ
  knot_prone : Bool
  complexity_score : ℚ
  risk_level : String
deriving Repr, DecidableEq

/-- The `nesting` signal of `detect_knots`: Python's
`max([0] + [max(0, max(0, *[1 if i < k < j else 0 for i, j in pairs]))
for k in range(len(structure))]) if pairs else 0`. -/
def nestingSignal (pairs : List (Nat × Nat)) (n : Nat) : Nat :=
  if pairs = [] then 0
  else ((List.range n).map
    (fun k => if pairs.any (fun p => p.1 < k && k < p.2) then 1 else 0)).foldl max 0

/-- `linking = nesting + writhe` inside `detect_knots`. -/
def linkingNumberOf (structure' : List Char) : ℚ :=
  (nestingSignal (getBasePairs structure') structure'.length : ℚ) +
    computeWrithe structure'

/-- The `complexity` weighted sum of `detect_knots`:
`min(abs(writhe)/2, 1)*0.3 + min(len(crossings)/3, 1)*0.3 +
min(abs(linking)/5, 1)*0.2 + nesting_complexity*0.2`. -/
def complexityOf (structure' : List Char) : ℚ :=
  min (|computeWrithe structure'| / 2) 1 * (3 / 10) +
    min (((identifyCrossingPatterns structure').length : ℚ) / 3) 1 * (3 / 10) +
    min (|linkingNumberOf structure'| / 5) 1 * (2 / 10) +
    calcNestingComplexity structure' * (2 / 10)

/-- The `risk_level` conditional expression of `detect_knots` (note it reads
the unclamped `complexity`, not the clamped `complexity_score`). -/
def riskLevelOf (complexity : ℚ) : String :=
  if complexity < 1 / 10 then "LOW"
  else if complexity < 2 / 10 then "MEDIUM"
  else if complexity < 3 / 10 then "HIGH"
  else "CRITICAL"

/-- `detect_knots(structure)` with the analyzer's thresholds
(constructor defaults are the `config` values). -/
def detectKnots (writheThreshold : ℚ) (crossingThreshold : Nat)
    (structure' : List Char) : KnotRecord :=
  { writhe := computeWrithe structure'
    crossing_count := (identifyCrossingPatterns structure').length
    crossing_positions := identifyCrossingPatterns structure'
    linking_number := linkingNumberOf structure'
    knot_prone := knotProneOf writheThreshold crossingThreshold
      (computeWrithe structure') (identifyCrossingPatterns structure').length
    complexity_score := min (complexityOf structure') 1
    risk_level := riskLevelOf (complexityOf structure') }

/-- `detect_knots` with the default `config` thresholds. -/
def detectKnotsDefault (structure' : List Char) : KnotRecord :=
  detectKnots WRITHE_THRESHOLD CROSSING_NUMBER_THRESHOLD structure'

/-! ## Window aggregator (`summarize_knot_regions`) -/

/-- The fields of an aggregated window record that the summary reads. -/
structure WindowKnot where
  complexity_score : ℚ
  risk_level : String
deriving Repr, DecidableEq

/-- The summary dictionary of `summarize_knot_regions`. -/
structure Summary where
  total_windows_analyzed : Nat
  high_risk_windows : Nat
  average_complexity : ℚ
  max_complexity : ℚ
  high_risk_regions : List WindowKnot
  dist_LOW : Nat
  dist_MEDIUM : Nat
  dist_HIGH : Nat
  dist_CRITICAL : Nat
deriving Repr, DecidableEq

/-- `np.mean(xs)`: `none` models the NaN produced on an empty list (a warning,
not an exception). -/
def npMean (xs : List ℚ) : Option ℚ :=
  match xs with
  | [] => none
  | _ => some (xs.sum / (xs.length : ℚ))

/-- Python `max(xs)`: raises `ValueError` on an empty sequence. -/
def pyMax (xs : List ℚ) : Except String ℚ :=
  match xs with
  | [] => Except.error "max() arg is an empty sequence"
  | x :: rest => Except.ok (rest.foldl max x)

/-- `summarize_knot_regions(window_results)`.  The dictionary literal
evaluates `np.mean(...)` (NaN on empty, no exception) before `max(...)`
(which raises on empty), so the empty input surfaces as the `max` error. -/
def summarizeKnotRegions (windowResults : List WindowKnot) :
    Except String Summary :=
  let highRisk := windowResults.filter
    (fun r => r.risk_level = "HIGH" || r.risk_level = "CRITICAL")
  let avg := npMean (windowResults.map (·.complexity_score))
  match pyMax (windowResults.map (·.complexity_score)) with
  | Except.error e => Except.error e
  | Except.ok mx =>
    Except.ok
      { total_windows_analyzed := windowResults.length
        high_risk_windows := highRisk.length
        average_complexity := avg.getD 0
        max_complexity := mx
        high_risk_regions := highRisk
        dist_LOW := (windowResults.filter (fun r => r.risk_level = "LOW")).length
        dist_MEDIUM := (windowResults.filter (fun r => r.risk_level = "MEDIUM")).length
        dist_HIGH := (windowResults.filter (fun r => r.risk_level = "HIGH")).length
        dist_CRITICAL := (windowResults.filter (fun r => r.risk_level = "CRITICAL")).length }

/-! ## Window scanner (`sliding_window_prediction`) -/

/-- Python `range(start, stop, step)` for a positive `step`, via fuel
(`stop - start` bounds the number of yielded values when `1 ≤ step`). -/
def pyRangeGo (stop step : Nat) : Nat → Nat → List Nat
  | 0, _ => []
  | fuel + 1, cur => if cur < stop then cur :: pyRangeGo stop step fuel (cur + step) else []

/-- Python `range(start, stop, step)`. -/
def pyRange (start stop step : Nat) : List Nat :=
  pyRangeGo stop step (stop - start) start

/-- One per-window result of `sliding_window_prediction`: the prediction
dictionary extended with `window_start`/`window_end`. -/
structure WindowPred where
  pred : PredResult
  window_start : Nat
  window_end : Nat
deriving Repr, DecidableEq

/-- `sliding_window_prediction(sequence, stride)` generalized over the
configured window size: for `i in range(0, len(sequence) - window_size,
stride)` predict on `sequence[i : i + window_size]`.  `none` when some
window's prediction raises. -/
def slidingWindowPrediction (s : List Char) (windowSize stride : Nat) :
    Option (List WindowPred) :=
  (pyRange 0 (s.length - windowSize) stride).mapM
    (fun i => (predictStructure ((s.drop i).take windowSize)).map
      (fun p => ⟨p, i, i + windowSize⟩))

/-! ## Helper notions used by the verification -/

/-- The candidate score tried by the fill loop when pairing `i` with `k`
inside `dp[i][j]` (identical in shape to the traceback's `tbScore`, but in
terms of final matrix values). -/
def fillCand (s : List Char) (i j k : Nat) : Nat :=
  1 + (if i + 1 ≤ k - 1 then nussinov s (i + 1) (k - 1) else 0)
    + (if k + 1 ≤ j then nussinov s (k + 1) j else 0)

/-- All positions occurring in an emitted (Int-indexed) pair list. -/
def posI (ps : List (Int × Int)) : List Int :=
  ps.flatMap (fun p => [p.1, p.2])

/-- All positions occurring in a (Nat-indexed) pair list. -/
def posN (ps : List (Nat × Nat)) : List Nat :=
  ps.flatMap (fun p => [p.1, p.2])

/-- The traceback's emitted pairs with indices converted to `Nat` (all
emitted indices are provably non-negative). -/
def pairsToNat (ps : List (Int × Int)) : List (Nat × Nat) :=
  ps.map (fun p => (p.1.toNat, p.2.toNat))

/-- Functional description of the written structure array: `'('` at pair
openers, `')'` at pair closers, `'.'` elsewhere. -/
def renderF (P : List (Nat × Nat)) (q : Nat) : Char :=
  if q ∈ P.map Prod.fst then '(' else if q ∈ P.map Prod.snd then ')' else '.'

/-- The write list of a `Nat`-indexed pair list (what `pairWrites` becomes
after the emitted indices are converted). -/
def natWrites (P : List (Nat × Nat)) : List (Nat × Char) :=
  P.flatMap (fun p => [(p.1, '('), (p.2, ')')])

/-- Invariant of the `_get_base_pairs` stack parse after consuming positions
`< k`: emitted pairs are increasing and finished, stack positions are fresh
and strictly decreasing top-down, every stack position lies outside every
emitted pair, and the emitted pairs are pairwise non-crossing. -/
def ParseInv (k : Nat) (st : List (Nat × Nat) × List Nat) : Prop :=
  (∀ p ∈ st.1, p.1 < p.2 ∧ p.2 < k) ∧
  (∀ x ∈ st.2, x < k) ∧
  List.Pairwise (fun a b => b < a) st.2 ∧
  (∀ x ∈ st.2, ∀ p ∈ st.1, x < p.1 ∨ p.2 < x) ∧
  (∀ p ∈ st.1, ∀ q ∈ st.1, crossB p q = false)

/-! ## Lemmas -/

/-- No base is its own Watson-Crick partner under `bp_complement`. -/
theorem canPair_self (c : Char) : canPair c c = false := by
  unfold canPair bpComplement
  split_ifs with h1 h2 h3 h4 h5 <;> simp_all

/-- `compute_writhe`'s stack always stores each element's own index: the
stack (top first) is `[len-1, ..., 1, 0]`. -/
theorem writheRun_eq (l : List Char) :
    ∀ (w : ℚ) (stack : List Nat), stack = (List.range stack.length).reverse →
      (l.foldl writheStep (w, stack)).1 = w := by
  induction l with
  | nil => intro w stack _; rfl
  | cons c rest ih =>
    intro w stack hst
    by_cases hop : c = '('
    · have hstep : writheStep (w, stack) c = (w, stack.length :: stack) := by
        simp [writheStep, hop]
      rw [List.foldl_cons, hstep]
      apply ih
      have : (stack.length :: stack).length = stack.length + 1 := rfl
      rw [this, List.range_succ, List.reverse_append]
      simpa using congrArg (stack.length :: ·) hst
    · by_cases hcl : c = ')'
      · cases stack with
        | nil =>
          have hstep : writheStep (w, ([] : List Nat)) c = (w, []) := by
            simp [writheStep, hop, hcl]
          rw [List.foldl_cons, hstep]
          exact ih w [] rfl
        | cons r rest' =>
          have hlen : (r :: rest').length = rest'.length + 1 := rfl
          rw [hlen, List.range_succ, List.reverse_append] at hst
          simp only [List.reverse_singleton, List.singleton_append,
            List.cons.injEq] at hst
          obtain ⟨hr, hrest⟩ := hst
          have hd : ((r :: rest').length : Int) - 1 - (r : Int) = 0 := by
            rw [hlen, hr]; push_cast; ring
          have hstep : writheStep (w, r :: rest') c = (w, rest') := by
            unfold writheStep
            rw [if_neg hop, if_pos hcl]
            show (w + writheSign (((r :: rest').length : Int) - 1 - (r : Int)),
              rest') = (w, rest')
            rw [hd]
            norm_num [writheSign]
          rw [List.foldl_cons, hstep]
          exact ih w rest' hrest
      · have hstep : writheStep (w, stack) c = (w, stack) := by
          simp [writheStep, hop, hcl]
        rw [List.foldl_cons, hstep]
        exact ih w stack hst

/-- `compute_writhe` returns 0 on every structure string. -/
theorem computeWrithe_eq_zero (structure' : List Char) :
    computeWrithe structure' = 0 :=
  writheRun_eq structure' 0 [] rfl

/-- The risk-tier conditional sends each band to its tier, exclusively. -/
theorem riskLevelOf_cases (c : ℚ) :
    (riskLevelOf c = "LOW" ↔ c < 1 / 10) ∧
    (riskLevelOf c = "MEDIUM" ↔ 1 / 10 ≤ c ∧ c < 2 / 10) ∧
    (riskLevelOf c = "HIGH" ↔ 2 / 10 ≤ c ∧ c < 3 / 10) ∧
    (riskLevelOf c = "CRITICAL" ↔ 3 / 10 ≤ c) := by
  unfold riskLevelOf
  split_ifs with h1 h2 h3 <;>
    refine ⟨⟨fun hh => ?_, fun hh => ?_⟩, ⟨fun hh => ?_, fun hh => ?_⟩,
      ⟨fun hh => ?_, fun hh => ?_⟩, ⟨fun hh => ?_, fun hh => ?_⟩⟩ <;>
    first
      | rfl
      | linarith
      | (exact absurd hh (by decide))
      | (exact ⟨by linarith, by linarith⟩)

/-- `_calc_nesting_complexity` never exceeds 1. -/
theorem calcNestingComplexity_le_one (structure' : List Char) :
    calcNestingComplexity structure' ≤ 1 := by
  unfold calcNestingComplexity
  split_ifs with h
  · norm_num
  · have h1 : min (((structure'.foldl cncStep (0, 0, 0, 0)).2.1 : ℚ) / 10) 1 ≤ 1 :=
      min_le_right _ _
    have h2 : min (((structure'.foldl cncStep (0, 0, 0, 0)).2.2.1 : ℚ) /
        (structure'.length : ℚ)) 1 ≤ 1 := min_le_right _ _
    linarith

/-- The weighted `complexity` sum never exceeds 1, so the clamp
`min(complexity, 1.0)` is the identity on it. -/
theorem complexityOf_le_one (structure' : List Char) :
    complexityOf structure' ≤ 1 := by
  unfold complexityOf
  have h1 : min (|computeWrithe structure'| / 2) 1 ≤ 1 := min_le_right _ _
  have h2 : min (((identifyCrossingPatterns structure').length : ℚ) / 3) 1 ≤ 1 :=
    min_le_right _ _
  have h3 : min (|linkingNumberOf structure'| / 5) 1 ≤ 1 := min_le_right _ _
  have h4 := calcNestingComplexity_le_one structure'
  linarith

/-- `complexity_score` equals the unclamped `complexity` the tiers test. -/
theorem complexity_score_eq (writheThreshold : ℚ) (crossingThreshold : Nat)
    (structure' : List Char) :
    (detectKnots writheThreshold crossingThreshold structure').complexity_score =
      complexityOf structure' := by
  show min (complexityOf structure') 1 = complexityOf structure'
  exact min_eq_left (complexityOf_le_one structure')

/-- Membership in the fuelled Python `range`: exactly the multiples of `step`
from `cur` that stay below `stop` (fuel covering the distance). -/
theorem pyRangeGo_mem (stop step : Nat) (hstep : 1 ≤ step) :
    ∀ (fuel cur : Nat), stop ≤ cur + fuel →
      ∀ v, v ∈ pyRangeGo stop step fuel cur ↔
        (∃ t, v = cur + step * t) ∧ v < stop := by
  intro fuel
  induction fuel with
  | zero =>
    intro cur hf v
    simp only [pyRangeGo, List.not_mem_nil, false_iff]
    rintro ⟨⟨t, rfl⟩, hlt⟩
    have : cur ≤ cur + step * t := Nat.le_add_right _ _
    omega
  | succ f ih =>
    intro cur hf v
    simp only [pyRangeGo]
    by_cases hcur : cur < stop
    · rw [if_pos hcur]
      have hrec := ih (cur + step) (by omega) v
      simp only [List.mem_cons, hrec]
      constructor
      · rintro (rfl | ⟨⟨t, rfl⟩, hlt⟩)
        · exact ⟨⟨0, by omega⟩, hcur⟩
        · exact ⟨⟨t + 1, by rw [Nat.mul_succ]; omega⟩, hlt⟩
      · rintro ⟨⟨t, rfl⟩, hlt⟩
        cases t with
        | zero => left; omega
        | succ u =>
          right
          exact ⟨⟨u, by rw [Nat.mul_succ]; omega⟩, hlt⟩
    · rw [if_neg hcur]
      simp only [List.not_mem_nil, false_iff]
      rintro ⟨⟨t, rfl⟩, hlt⟩
      have : cur ≤ cur + step * t := Nat.le_add_right _ _
      omega

/-- Membership in `range(0, stop, step)` for a positive `step`. -/
theorem pyRange_mem (stop step : Nat) (hstep : 1 ≤ step) (v : Nat) :
    v ∈ pyRange 0 stop step ↔ (∃ t, v = step * t) ∧ v < stop := by
  have h := pyRangeGo_mem stop step hstep stop 0 (by omega) v
  unfold pyRange
  simpa using h

/-- `mapM` over `Option` succeeds when every element maps to `some`, and the
result is pointwise related to the input. -/
theorem mapM_option_some {α β : Type} (f : α → Option β) :
    ∀ l : List α, (∀ a ∈ l, ∃ b, f a = some b) →
      ∃ res, l.mapM f = some res ∧
        List.Forall₂ (fun a b => f a = some b) l res := by
  intro l
  induction l with
  | nil => intro _; exact ⟨[], rfl, List.Forall₂.nil⟩
  | cons a l ih =>
    intro h
    obtain ⟨b, hb⟩ := h a (List.mem_cons_self a l)
    obtain ⟨res, hres, hrel⟩ := ih (fun x hx => h x (List.mem_cons_of_mem a hx))
    refine ⟨b :: res, ?_, List.Forall₂.cons hb hrel⟩
    rw [List.mapM_cons, hb, hres]
    rfl

/-- A `Forall₂` relation that determines the left element reconstructs the
input list by mapping over the output. -/
theorem forall₂_map_eq {α β : Type} {R : α → β → Prop} (g : β → α)
    (hg : ∀ a b, R a b → g b = a) :
    ∀ {l : List α} {res : List β}, List.Forall₂ R l res → res.map g = l := by
  intro l res h
  induction h with
  | nil => rfl
  | cons hab _ ih => simp [ih, hg _ _ hab]

/-- Every output element of a `Forall₂` has a related input element. -/
theorem forall₂_mem_right {α β : Type} {R : α → β → Prop} :
    ∀ {l : List α} {res : List β}, List.Forall₂ R l res →
      ∀ b ∈ res, ∃ a ∈ l, R a b := by
  intro l res h
  induction h with
  | nil => intro b hb; cases hb
  | cons hab _ ih =>
    intro b hb
    rcases List.mem_cons.mp hb with rfl | hb'
    · exact ⟨_, List.mem_cons_self _ _, hab⟩
    · obtain ⟨a, ha, hr⟩ := ih b hb'
      exact ⟨a, List.mem_cons_of_mem _ ha, hr⟩

/-- `predict_structure` succeeds on every non-empty sequence, echoing the
input sequence in the result. -/
theorem predictStructure_some (s : List Char) (h : s.length ≠ 0) :
    predictStructure s =
      some { sequence := s
             structure' := traceback s 0 ((s.length : Int) - 1)
             base_pairs := nussinov s 0 (s.length - 1)
             length := s.length } := by
  unfold predictStructure
  rw [if_neg h]

/-- One parser step preserves the invariant. -/
theorem gbpStep_inv (k : Nat) (c : Char) (st : List (Nat × Nat) × List Nat)
    (h : ParseInv k st) : ParseInv (k + 1) (gbpStep st (k, c)) := by
  obtain ⟨hpair, hstk, hdec, hout, hnc⟩ := h
  by_cases hop : c = '('
  · have hstep : gbpStep st (k, c) = (st.1, k :: st.2) := by
      simp [gbpStep, hop]
    rw [hstep]
    refine ⟨fun p hp => ⟨(hpair p hp).1, by have := (hpair p hp).2; omega⟩,
      ?_, ?_, ?_, hnc⟩
    · intro x hx
      rcases List.mem_cons.mp hx with rfl | hx'
      · omega
      · have := hstk x hx'; omega
    · exact List.Pairwise.cons (fun y hy => hstk y hy) hdec
    · intro x hx p hp
      rcases List.mem_cons.mp hx with rfl | hx'
      · right; exact (hpair p hp).2
      · exact hout x hx' p hp
  · by_cases hcl : c = ')'
    · cases hstack : st.2 with
      | nil =>
        have hstep : gbpStep st (k, c) = st := by
          simp [gbpStep, hop, hcl, hstack]
        rw [hstep]
        refine ⟨fun p hp => ⟨(hpair p hp).1, by have := (hpair p hp).2; omega⟩,
          fun x hx => by have := hstk x hx; omega, hdec, hout, hnc⟩
      | cons x rest =>
        have hstep : gbpStep st (k, c) = (st.1 ++ [(x, k)], rest) := by
          simp [gbpStep, hop, hcl, hstack]
        rw [hstep]
        have hxk : x < k := hstk x (by rw [hstack]; exact List.mem_cons_self _ _)
        have hrest_lt : ∀ y ∈ rest, y < x := by
          intro y hy
          have := hdec
          rw [hstack] at this
          exact (List.pairwise_cons.mp this).1 y hy
        have hrest_mem : ∀ y ∈ rest, y ∈ st.2 := by
          intro y hy; rw [hstack]; exact List.mem_cons_of_mem _ hy
        have hx_out : ∀ p ∈ st.1, x < p.1 ∨ p.2 < x :=
          hout x (by rw [hstack]; exact List.mem_cons_self _ _)
        have hnc_new : ∀ p ∈ st.1, crossB p (x, k) = false ∧
            crossB (x, k) p = false := by
          intro p hp
          obtain ⟨hab, hbk⟩ := hpair p hp
          rcases hx_out p hp with hxa | hbx
          · constructor <;>
              · simp only [crossB, decide_eq_false_iff_not]
                push_neg
                constructor
                · intro h1 h2; omega
                · intro h1 h2; omega
          · constructor <;>
              · simp only [crossB, decide_eq_false_iff_not]
                push_neg
                constructor
                · intro h1 h2; omega
                · intro h1 h2; omega
        refine ⟨?_, ?_, ?_, ?_, ?_⟩
        · intro p hp
          rcases List.mem_append.mp hp with hp' | hp'
          · exact ⟨(hpair p hp').1, by have := (hpair p hp').2; omega⟩
          · rcases List.mem_singleton.mp hp' with rfl
            exact ⟨hxk, by omega⟩
        · intro y hy
          have := hstk y (hrest_mem y hy); omega
        · rw [hstack] at hdec
          exact (List.pairwise_cons.mp hdec).2
        · intro y hy p hp
          rcases List.mem_append.mp hp with hp' | hp'
          · exact hout y (hrest_mem y hy) p hp'
          · rcases List.mem_singleton.mp hp' with rfl
            left
            exact hrest_lt y hy
        · intro p hp q hq
          rcases List.mem_append.mp hp with hp' | hp' <;>
            rcases List.mem_append.mp hq with hq' | hq'
          · exact hnc p hp' q hq'
          · rcases List.mem_singleton.mp hq' with rfl
            exact (hnc_new p hp').1
          · rcases List.mem_singleton.mp hp' with rfl
            exact (hnc_new q hq').2
          · rcases List.mem_singleton.mp hp' with rfl
            rcases List.mem_singleton.mp hq' with rfl
            simp [crossB]
    · have hstep : gbpStep st (k, c) = st := by
        simp [gbpStep, hop, hcl]
      rw [hstep]
      refine ⟨fun p hp => ⟨(hpair p hp).1, by have := (hpair p hp).2; omega⟩,
        fun x hx => by have := hstk x hx; omega, hdec, hout, hnc⟩

/-- Folding the parser over enumerated characters preserves the invariant. -/
theorem gbpFold_inv :
    ∀ (l : List Char) (k : Nat) (st : List (Nat × Nat) × List Nat),
      ParseInv k st →
      ParseInv (k + l.length) (List.foldl gbpStep st (l.enumFrom k)) := by
  intro l
  induction l with
  | nil => intro k st h; simpa using h
  | cons c rest ih =>
    intro k st h
    have : (c :: rest).enumFrom k = (k, c) :: rest.enumFrom (k + 1) := rfl
    rw [this, List.foldl_cons]
    have := ih (k + 1) (gbpStep st (k, c)) (gbpStep_inv k c st h)
    have harith : k + 1 + rest.length = k + (c :: rest).length := by
      simp [List.length_cons]; omega
    rwa [harith] at this

/-- The pairs extracted by the stack parse are pairwise non-crossing. -/
theorem gbpRun_noncrossing (l : List Char) :
    ∀ p ∈ (gbpRun l).1, ∀ q ∈ (gbpRun l).1, crossB p q = false := by
  have h0 : ParseInv 0 (([], []) : List (Nat × Nat) × List Nat) := by
    refine ⟨?_, ?_, List.Pairwise.nil, ?_, ?_⟩ <;> intro x hx <;> cases hx
  have h := gbpFold_inv l 0 ([], []) h0
  have henum : l.enum = l.enumFrom 0 := rfl
  unfold gbpRun
  rw [henum]
  exact h.2.2.2.2

/-- `identify_crossing_patterns`'s double loop returns nothing on a pairwise
non-crossing pair list. -/
theorem crossingsOf_eq_nil :
    ∀ l : List (Nat × Nat), (∀ p ∈ l, ∀ q ∈ l, crossB p q = false) →
      crossingsOf l = [] := by
  intro l
  induction l with
  | nil => intro _; rfl
  | cons p rest ih =>
    intro h
    have hfilter : rest.filter (crossB p) = [] := by
      rw [List.filter_eq_nil_iff]
      intro q hq
      rw [h p (List.mem_cons_self _ _) q (List.mem_cons_of_mem _ hq)]
      exact Bool.false_ne_true
    show (rest.filter (crossB p)).map _ ++ crossingsOf rest = []
    rw [hfilter]
    exact ih fun a ha b hb =>
      h a (List.mem_cons_of_mem _ ha) b (List.mem_cons_of_mem _ hb)

/-- `identify_crossing_patterns` is empty on every structure string: the
stack parse it builds its pair list from can only produce nested pairs. -/
theorem identifyCrossingPatterns_eq_nil (structure' : List Char) :
    identifyCrossingPatterns structure' = [] := by
  unfold identifyCrossingPatterns getBasePairs
  apply crossingsOf_eq_nil
  intro p hp q hq
  rw [List.mem_mergeSort] at hp hq
  exact gbpRun_noncrossing structure' p hp q hq

/-- One-step unfolding of the fuelled fill. -/
theorem nussGo_succ (s : List Char) (f i j : Nat) :
    nussGo s (f + 1) i j =
      if j ≤ i then 0
      else
        (List.range' i (j - i)).foldl
          (fun acc k =>
            if canPair (sGet s i) (sGet s k) then
              max acc (1 + (if i + 1 ≤ k - 1 then nussGo s f (i + 1) (k - 1) else 0)
                         + (if k + 1 ≤ j then nussGo s f (k + 1) j else 0))
            else acc)
          (nussGo s f i (j - 1)) := rfl

/-- Unwritten score-matrix entries (length ≤ 1 and the lower triangle) are 0. -/
theorem nussinov_base (s : List Char) (i j : Nat) (h : j ≤ i) :
    nussinov s i j = 0 := by
  unfold nussinov
  cases h' : j + 1 - i with
  | zero => rfl
  | succ m => rw [nussGo_succ, if_pos h]

/-- Any sufficient fuel computes the score-matrix entry. -/
theorem nussGo_fuel (s : List Char) :
    ∀ (f i j : Nat), j + 1 - i ≤ f → nussGo s f i j = nussinov s i j := by
  intro f
  induction f using Nat.strong_induction_on with
  | _ f H =>
    intro i j hf
    cases f with
    | zero =>
      have hji : j ≤ i := by omega
      rw [nussinov_base s i j hji]
      rfl
    | succ g =>
      by_cases hji : j ≤ i
      · rw [nussGo_succ, if_pos hji, nussinov_base s i j hji]
      · push_neg at hji
        have hm : j + 1 - i = (j - i) + 1 := by omega
        rw [nussGo_succ, if_neg (by omega), nussinov, hm, nussGo_succ,
          if_neg (by omega)]
        have hinit : nussGo s g i (j - 1) = nussGo s (j - i) i (j - 1) := by
          rw [H g (by omega) i (j - 1) (by omega),
            H (j - i) (by omega) i (j - 1) (by omega)]
        rw [hinit]
        apply List.foldl_ext
        intro acc k hk
        rw [List.mem_range'_1] at hk
        have e1 : nussGo s g (i + 1) (k - 1) = nussGo s (j - i) (i + 1) (k - 1) := by
          rw [H g (by omega) (i + 1) (k - 1) (by omega),
            H (j - i) (by omega) (i + 1) (k - 1) (by omega)]
        have e2 : nussGo s g (k + 1) j = nussGo s (j - i) (k + 1) j := by
          rw [H g (by omega) (k + 1) j (by omega),
            H (j - i) (by omega) (k + 1) j (by omega)]
        rw [e1, e2]

/-- The recurrence actually satisfied by the final score matrix: `dp[i][j]`
(for `i < j`) is the fold of the pairing candidates over `k in range(i, j)`
starting from `dp[i][j-1]`. -/
theorem nussinov_rec (s : List Char) (i j : Nat) (hij : i < j) :
    nussinov s i j =
      (List.range' i (j - i)).foldl
        (fun acc k =>
          if canPair (sGet s i) (sGet s k) then max acc (fillCand s i j k)
          else acc)
        (nussinov s i (j - 1)) := by
  have hm : j + 1 - i = (j - i) + 1 := by omega
  rw [nussinov, hm, nussGo_succ, if_neg (by omega)]
  rw [nussGo_fuel s (j - i) i (j - 1) (by omega)]
  apply List.foldl_ext
  intro acc k hk
  rw [List.mem_range'_1] at hk
  rw [nussGo_fuel s (j - i) (i + 1) (k - 1) (by omega),
    nussGo_fuel s (j - i) (k + 1) j (by omega)]
  rfl

/-- A conditional-max fold only grows its accumulator. -/
theorem foldl_max_init_le (cond : Nat → Bool) (g : Nat → Nat) :
    ∀ (l : List Nat) (init : Nat),
      init ≤ l.foldl (fun acc k => if cond k then max acc (g k) else acc) init := by
  intro l
  induction l with
  | nil => intro init; exact le_refl _
  | cons k rest ih =>
    intro init
    rw [List.foldl_cons]
    refine le_trans ?_ (ih _)
    by_cases h : cond k
    · rw [if_pos h]; exact Nat.le_max_left _ _
    · rw [if_neg h]

/-- A conditional-max fold returns its initial value or the value of some
listed candidate that passes the condition. -/
theorem foldl_max_cases (cond : Nat → Bool) (g : Nat → Nat) :
    ∀ (l : List Nat) (init : Nat),
      l.foldl (fun acc k => if cond k then max acc (g k) else acc) init = init ∨
      ∃ k ∈ l, cond k = true ∧
        l.foldl (fun acc k => if cond k then max acc (g k) else acc) init = g k := by
  intro l
  induction l with
  | nil => intro init; exact Or.inl rfl
  | cons k rest ih =>
    intro init
    rw [List.foldl_cons]
    by_cases hc : cond k
    · rw [if_pos hc]
      rcases ih (max init (g k)) with h | ⟨k', hk', hc', he'⟩
      · rcases max_choice init (g k) with hm | hm
        · left; rw [h, hm]
        · right; exact ⟨k, List.mem_cons_self _ _, hc, by rw [h, hm]⟩
      · right; exact ⟨k', List.mem_cons_of_mem _ hk', hc', he'⟩
    · rw [if_neg hc]
      rcases ih init with h | ⟨k', hk', hc', he'⟩
      · left; exact h
      · right; exact ⟨k', List.mem_cons_of_mem _ hk', hc', he'⟩

/-- What a successful `findK` guarantees: the found `k` lies in
`range(i, j)`, the bases can pair, and the matrix entry equals the pairing
score. -/
theorem findK_some_spec (s : List Char) (i j k : Int)
    (h : findK s i j = some k) :
    i ≤ k ∧ k < j ∧
    canPair (sGet s (pyIdx s.length i)) (sGet s (pyIdx s.length k)) = true ∧
    dpRead s i j = tbScore s i j k := by
  unfold findK at h
  have hmem := List.mem_of_find?_eq_some h
  have hpred := List.find?_some h
  rw [List.mem_map] at hmem
  obtain ⟨t, ht, rfl⟩ := hmem
  rw [List.mem_range] at ht
  simp only [Bool.and_eq_true, beq_iff_eq] at hpred
  exact ⟨by omega, by omega, hpred.1, hpred.2⟩

/-- `dp` reads at non-negative indices have no wraparound. -/
theorem dpRead_eq (s : List Char) (i j : Int) (hi : 0 ≤ i) (hj : 0 ≤ j) :
    dpRead s i j = nussinov s i.toNat j.toNat := by
  unfold dpRead pyIdx
  rw [if_neg (by omega), if_neg (by omega)]

/-- The traceback's pairing score coincides with the fill's candidate score
at the corresponding `Nat` indices. -/
theorem tbScore_eq (s : List Char) (i j k : Int) (hi : 0 ≤ i) (hik : i ≤ k)
    (hkj : k < j) :
    tbScore s i j k = fillCand s i.toNat j.toNat k.toNat := by
  unfold tbScore fillCand
  have e2 : (if k + 1 ≤ j then dpRead s (k + 1) j else 0) =
      (if k.toNat + 1 ≤ j.toNat then nussinov s (k.toNat + 1) j.toNat else 0) := by
    rw [if_pos (by omega : k + 1 ≤ j),
      if_pos (by omega : k.toNat + 1 ≤ j.toNat),
      dpRead_eq s (k + 1) j (by omega) (by omega),
      show (k + 1).toNat = k.toNat + 1 from by omega]
  have e1 : (if i + 1 ≤ k - 1 then dpRead s (i + 1) (k - 1) else 0) =
      (if i.toNat + 1 ≤ k.toNat - 1 then
        nussinov s (i.toNat + 1) (k.toNat - 1) else 0) := by
    by_cases hc : i + 2 ≤ k
    · rw [if_pos (by omega), if_pos (by omega),
        dpRead_eq s (i + 1) (k - 1) (by omega) (by omega),
        show (i + 1).toNat = i.toNat + 1 from by omega,
        show (k - 1).toNat = k.toNat - 1 from by omega]
    · rw [if_neg (by omega), if_neg (by omega)]
  rw [e1, e2]

/-- One-step unfolding of the fuelled traceback. -/
theorem tbGo_succ (s : List Char) (f : Nat) (i j : Int) :
    tbGo s (f + 1) i j =
      if i > j then []
      else if dpRead s i j == dpRead s i (j - 1) then tbGo s f i (j - 1)
      else
        match findK s i j with
        | some k => (i, k) :: (tbGo s f (i + 1) (k - 1) ++ tbGo s f (k + 1) j)
        | none => [] := rfl

/-- The traceback emits nothing on an empty range. -/
theorem tbPairs_neg (s : List Char) (i j : Int) (h : j < i) :
    tbPairs s i j = [] := by
  unfold tbPairs
  cases hm : (j - i + 1).toNat with
  | zero => rfl
  | succ m => rw [tbGo_succ, if_pos (by omega)]

/-- Any sufficient fuel computes the traceback's emitted pairs. -/
theorem tbGo_fuel (s : List Char) :
    ∀ (f : Nat) (i j : Int), (j - i + 1).toNat ≤ f →
      tbGo s f i j = tbPairs s i j := by
  intro f
  induction f using Nat.strong_induction_on with
  | _ f H =>
    intro i j hf
    by_cases hij : j < i
    · rw [tbPairs_neg s i j hij]
      cases f with
      | zero => rfl
      | succ g => rw [tbGo_succ, if_pos (by omega)]
    · push_neg at hij
      have hm : (j - i + 1).toNat = (j - i).toNat + 1 := by omega
      cases f with
      | zero => omega
      | succ g =>
        rw [tbPairs, hm, tbGo_succ, tbGo_succ, if_neg (by omega : ¬i > j),
          if_neg (by omega : ¬i > j)]
        by_cases hskip : dpRead s i j == dpRead s i (j - 1)
        · rw [if_pos hskip, if_pos hskip,
            H g (by omega) i (j - 1) (by omega),
            H ((j - i).toNat) (by omega) i (j - 1) (by omega)]
        · rw [if_neg hskip, if_neg hskip]
          cases hk : findK s i j with
          | none => rfl
          | some k =>
            obtain ⟨hik, hkj, -, -⟩ := findK_some_spec s i j k hk
            show (i, k) :: (tbGo s g (i + 1) (k - 1) ++ tbGo s g (k + 1) j) =
              (i, k) :: (tbGo s ((j - i).toNat) (i + 1) (k - 1) ++
                tbGo s ((j - i).toNat) (k + 1) j)
            rw [H g (by omega) (i + 1) (k - 1) (by omega),
              H ((j - i).toNat) (by omega) (i + 1) (k - 1) (by omega),
              H g (by omega) (k + 1) j (by omega),
              H ((j - i).toNat) (by omega) (k + 1) j (by omega)]

/-- One-step unfolding of the traceback in terms of itself. -/
theorem tbPairs_unfold (s : List Char) (i j : Int) (hij : i ≤ j) :
    tbPairs s i j =
      if dpRead s i j == dpRead s i (j - 1) then tbPairs s i (j - 1)
      else
        match findK s i j with
        | some k => (i, k) :: (tbPairs s (i + 1) (k - 1) ++ tbPairs s (k + 1) j)
        | none => [] := by
  have hm : (j - i + 1).toNat = (j - i).toNat + 1 := by omega
  rw [tbPairs, hm, tbGo_succ, if_neg (by omega)]
  by_cases hskip : dpRead s i j == dpRead s i (j - 1)
  · rw [if_pos hskip, if_pos hskip,
      tbGo_fuel s ((j - i).toNat) i (j - 1) (by omega)]
  · rw [if_neg hskip, if_neg hskip]
    cases hk : findK s i j with
    | none => rfl
    | some k =>
      obtain ⟨hik, hkj, -, -⟩ := findK_some_spec s i j k hk
      show (i, k) :: (tbGo s ((j - i).toNat) (i + 1) (k - 1) ++
          tbGo s ((j - i).toNat) (k + 1) j) =
        (i, k) :: (tbPairs s (i + 1) (k - 1) ++ tbPairs s (k + 1) j)
      rw [tbGo_fuel s ((j - i).toNat) (i + 1) (k - 1) (by omega),
        tbGo_fuel s ((j - i).toNat) (k + 1) j (by omega)]

/-- When `dp[i][j]` differs from `dp[i][j-1]`, the traceback's first-match
search must succeed: the fill computed `dp[i][j]` from some passing
candidate, and the traceback checks the same score expression. -/
theorem findK_isSome (s : List Char) (i j : Int) (hi : 0 ≤ i) (hij : i < j)
    (hne : ¬dpRead s i j = dpRead s i (j - 1)) :
    ∃ k, findK s i j = some k := by
  rw [dpRead_eq s i j hi (by omega), dpRead_eq s i (j - 1) hi (by omega),
    show (j - 1).toNat = j.toNat - 1 from by omega] at hne
  have hijN : i.toNat < j.toNat := by omega
  have hrec := nussinov_rec s i.toNat j.toNat hijN
  rcases foldl_max_cases (fun k => canPair (sGet s i.toNat) (sGet s k))
      (fun k => fillCand s i.toNat j.toNat k)
      (List.range' i.toNat (j.toNat - i.toNat)) (nussinov s i.toNat (j.toNat - 1))
    with hcase | ⟨k0, hk0mem, hk0c, hk0e⟩
  · exact absurd (hrec.trans hcase) hne
  · rw [List.mem_range'_1] at hk0mem
    have hx : ∃ x ∈ (List.range ((j - i).toNat)).map (fun t : Nat => i + (t : Int)),
        (canPair (sGet s (pyIdx s.length i)) (sGet s (pyIdx s.length x))
          && (dpRead s i j == tbScore s i j x)) = true := by
      refine ⟨(k0 : Int), ?_, ?_⟩
      · rw [List.mem_map]
        exact ⟨k0 - i.toNat, by rw [List.mem_range]; omega, by omega⟩
      · have h1 : pyIdx s.length i = i.toNat := by
          unfold pyIdx; rw [if_neg (by omega)]
        have h2 : pyIdx s.length (k0 : Int) = k0 := by
          unfold pyIdx; rw [if_neg (by omega)]; omega
        rw [Bool.and_eq_true, h1, h2, beq_iff_eq]
        refine ⟨hk0c, ?_⟩
        rw [dpRead_eq s i j hi (by omega),
          tbScore_eq s i j (k0 : Int) hi (by omega) (by omega),
          show ((k0 : Int)).toNat = k0 from by omega]
        exact hrec.trans hk0e
    have hsome : (((List.range ((j - i).toNat)).map
        (fun t : Nat => i + (t : Int))).find?
          (fun k => canPair (sGet s (pyIdx s.length i)) (sGet s (pyIdx s.length k))
            && (dpRead s i j == tbScore s i j k))).isSome := by
      rw [List.find?_isSome]
      obtain ⟨x, hxm, hxp⟩ := hx
      exact ⟨x, hxm, hxp⟩
    rw [Option.isSome_iff_exists] at hsome
    unfold findK
    exact hsome

/-- Unfolding `posI` over a cons. -/
theorem posI_cons (p : Int × Int) (L : List (Int × Int)) :
    posI (p :: L) = p.1 :: p.2 :: posI L := rfl

/-- Unfolding `posI` over an append. -/
theorem posI_append (A B : List (Int × Int)) :
    posI (A ++ B) = posI A ++ posI B := by
  unfold posI
  rw [List.flatMap_append]

/-- Membership in `posI`. -/
theorem posI_mem (x : Int) (L : List (Int × Int)) :
    x ∈ posI L ↔ ∃ p ∈ L, x = p.1 ∨ x = p.2 := by
  unfold posI
  rw [List.mem_flatMap]
  constructor
  · rintro ⟨p, hp, hx⟩
    rcases List.mem_cons.mp hx with rfl | hx'
    · exact ⟨p, hp, Or.inl rfl⟩
    · rcases List.mem_singleton.mp hx' with rfl
      exact ⟨p, hp, Or.inr rfl⟩
  · rintro ⟨p, hp, rfl | rfl⟩
    · exact ⟨p, hp, List.mem_cons_self _ _⟩
    · exact ⟨p, hp, List.mem_cons_of_mem _ (List.mem_singleton.mpr rfl)⟩

/-- Positions listed by `posI` inherit the interval bounds of their pairs. -/
theorem posI_bounds (L : List (Int × Int)) (lo hi : Int)
    (h : ∀ p ∈ L, lo ≤ p.1 ∧ p.1 < p.2 ∧ p.2 < hi) :
    ∀ x ∈ posI L, lo ≤ x ∧ x < hi := by
  intro x hx
  obtain ⟨p, hp, hcase⟩ := (posI_mem x L).mp hx
  obtain ⟨h1, h2, h3⟩ := h p hp
  rcases hcase with rfl | rfl
  · exact ⟨h1, by omega⟩
  · exact ⟨by omega, by omega⟩

/-- Main traceback invariant: on a range `[i, j]` inside the sequence, the
emitted pairs lie strictly inside the range with openers before closers, the
number of emitted pairs equals the score-matrix entry `dp[i][j]`, and no
position is written twice. -/
theorem tbPairs_main (s : List Char) :
    ∀ (m : Nat) (i j : Int), (j - i + 1).toNat ≤ m → 0 ≤ i →
      j < (s.length : Int) →
      (∀ p ∈ tbPairs s i j, i ≤ p.1 ∧ p.1 < p.2 ∧ p.2 < j) ∧
      (tbPairs s i j).length = nussinov s i.toNat j.toNat ∧
      (posI (tbPairs s i j)).Nodup := by
  intro m
  induction m with
  | zero =>
    intro i j hm h0 hn
    rw [tbPairs_neg s i j (by omega)]
    refine ⟨fun p hp => absurd hp (List.not_mem_nil p), ?_, by simp [posI]⟩
    rw [nussinov_base s i.toNat j.toNat (by omega)]
    rfl
  | succ m ih =>
    intro i j hm h0 hn
    by_cases hij : j < i
    · rw [tbPairs_neg s i j hij]
      refine ⟨fun p hp => absurd hp (List.not_mem_nil p), ?_, by simp [posI]⟩
      rw [nussinov_base s i.toNat j.toNat (by omega)]
      rfl
    · push_neg at hij
      rw [tbPairs_unfold s i j hij]
      by_cases hskip : dpRead s i j == dpRead s i (j - 1)
      · rw [if_pos hskip]
        have IH := ih i (j - 1) (by omega) h0 (by omega)
        refine ⟨?_, ?_, IH.2.2⟩
        · intro p hp
          have hb := IH.1 p hp
          exact ⟨hb.1, hb.2.1, by omega⟩
        · rw [IH.2.1]
          by_cases hj0 : 0 < j
          · rw [beq_iff_eq] at hskip
            rw [dpRead_eq s i j h0 (by omega),
              dpRead_eq s i (j - 1) h0 (by omega)] at hskip
            exact hskip.symm
          · rw [show (j - 1).toNat = j.toNat from by omega]
      · rw [if_neg hskip]
        by_cases hij' : i < j
        · have hne : ¬dpRead s i j = dpRead s i (j - 1) := by
            intro he
            exact hskip (by rw [beq_iff_eq]; exact he)
          obtain ⟨k, hk⟩ := findK_isSome s i j h0 hij' hne
          rw [hk]
          obtain ⟨hik, hkj, hcp, hsc⟩ := findK_some_spec s i j k hk
          have hpy_i : pyIdx s.length i = i.toNat := by
            unfold pyIdx; rw [if_neg (by omega)]
          have hpy_k : pyIdx s.length k = k.toNat := by
            unfold pyIdx; rw [if_neg (by omega)]
          have hki : i < k := by
            rcases eq_or_lt_of_le hik with rfl | h
            · rw [hpy_i, canPair_self] at hcp
              cases hcp
            · exact h
          have IH1 := ih (i + 1) (k - 1) (by omega) (by omega) (by omega)
          have IH2 := ih (k + 1) j (by omega) (by omega) hn
          have hscore : nussinov s i.toNat j.toNat =
              fillCand s i.toNat j.toNat k.toNat := by
            rw [dpRead_eq s i j h0 (by omega),
              tbScore_eq s i j k h0 hik hkj] at hsc
            exact hsc
          refine ⟨?_, ?_, ?_⟩
          · intro p hp
            rcases List.mem_cons.mp hp with rfl | hp'
            · exact ⟨le_refl _, hki, hkj⟩
            · rcases List.mem_append.mp hp' with hpA | hpB
              · have hb := IH1.1 p hpA
                exact ⟨by omega, hb.2.1, by omega⟩
              · have hb := IH2.1 p hpB
                exact ⟨by omega, hb.2.1, by omega⟩
          · rw [List.length_cons, List.length_append, IH1.2.1, IH2.2.1, hscore]
            unfold fillCand
            have hA : nussinov s (i + 1).toNat (k - 1).toNat =
                (if i.toNat + 1 ≤ k.toNat - 1 then
                  nussinov s (i.toNat + 1) (k.toNat - 1) else 0) := by
              by_cases hc : i.toNat + 1 ≤ k.toNat - 1
              · rw [if_pos hc, show (i + 1).toNat = i.toNat + 1 from by omega,
                  show (k - 1).toNat = k.toNat - 1 from by omega]
              · rw [if_neg hc, nussinov_base s _ _ (by omega)]
            have hB : nussinov s (k + 1).toNat j.toNat =
                (if k.toNat + 1 ≤ j.toNat then
                  nussinov s (k.toNat + 1) j.toNat else 0) := by
              rw [if_pos (by omega), show (k + 1).toNat = k.toNat + 1 from by omega]
            rw [hA, hB]
            omega
          · rw [posI_cons, posI_append]
            have hbA := posI_bounds _ _ _ IH1.1
            have hbB := posI_bounds _ _ _ IH2.1
            refine List.nodup_cons.mpr ⟨?_, List.nodup_cons.mpr ⟨?_, ?_⟩⟩
            · intro hmem
              rcases List.mem_cons.mp hmem with he | hmem'
              · omega
              · rcases List.mem_append.mp hmem' with hA | hB
                · have := hbA i hA; omega
                · have := hbB i hB; omega
            · intro hmem
              rcases List.mem_append.mp hmem with hA | hB
              · have := hbA k hA; omega
              · have := hbB k hB; omega
            · refine List.Nodup.append IH1.2.2 IH2.2.2 ?_
              intro x hxA hxB
              have h1 := hbA x hxA
              have h2 := hbB x hxB
              omega
        · have hij0 : i = j := by omega
          have hnone : findK s i j = none := by
            unfold findK
            rw [show (j - i).toNat = 0 from by omega]
            rfl
          rw [hnone]
          refine ⟨fun p hp => absurd hp (List.not_mem_nil p), ?_, by simp [posI]⟩
          rw [nussinov_base s i.toNat j.toNat (by omega)]
          rfl

/-- One write step. -/
theorem applyWrites_cons (init : List Char) (w : Nat × Char)
    (ws : List (Nat × Char)) :
    applyWrites init (w :: ws) = applyWrites (init.set w.1 w.2) ws := rfl

/-- In-place writes keep the array length. -/
theorem applyWrites_length :
    ∀ (ws : List (Nat × Char)) (init : List Char),
      (applyWrites init ws).length = init.length := by
  intro ws
  induction ws with
  | nil => intro init; rfl
  | cons w ws ih =>
    intro init
    rw [applyWrites_cons, ih, List.length_set]

/-- Positions never written keep their initial content. -/
theorem applyWrites_getElem?_not_mem :
    ∀ (ws : List (Nat × Char)) (init : List Char) (q : Nat),
      q ∉ ws.map Prod.fst → (applyWrites init ws)[q]? = init[q]? := by
  intro ws
  induction ws with
  | nil => intro init q _; rfl
  | cons w ws ih =>
    intro init q hq
    rw [List.map_cons, List.mem_cons] at hq
    push_neg at hq
    rw [applyWrites_cons, ih _ _ hq.2, List.getElem?_set_ne (by
      intro he
      exact hq.1 he.symm)]

/-- With pairwise distinct write positions, a written position ends up
holding exactly its written character. -/
theorem applyWrites_getElem?_mem :
    ∀ (ws : List (Nat × Char)) (init : List Char) (p : Nat) (c : Char),
      (ws.map Prod.fst).Nodup → (p, c) ∈ ws → p < init.length →
      (applyWrites init ws)[p]? = some c := by
  intro ws
  induction ws with
  | nil => intro init p c _ hm; cases hm
  | cons w ws ih =>
    intro init p c hnd hm hlen
    rw [List.map_cons] at hnd
    obtain ⟨hhead, htail⟩ := List.nodup_cons.mp hnd
    rcases List.mem_cons.mp hm with rfl | hm'
    · rw [applyWrites_cons,
        applyWrites_getElem?_not_mem ws _ p hhead,
        List.getElem?_set_self hlen]
    · rw [applyWrites_cons]
      exact ih _ p c htail hm' (by rw [List.length_set]; exact hlen)

/-- Membership in `posN`. -/
theorem posN_mem (x : Nat) (L : List (Nat × Nat)) :
    x ∈ posN L ↔ x ∈ L.map Prod.fst ∨ x ∈ L.map Prod.snd := by
  unfold posN
  rw [List.mem_flatMap]
  constructor
  · rintro ⟨p, hp, hx⟩
    rcases List.mem_cons.mp hx with rfl | hx'
    · exact Or.inl (List.mem_map.mpr ⟨p, hp, rfl⟩)
    · rcases List.mem_singleton.mp hx' with rfl
      exact Or.inr (List.mem_map.mpr ⟨p, hp, rfl⟩)
  · rintro (hx | hx)
    · obtain ⟨p, hp, rfl⟩ := List.mem_map.mp hx
      exact ⟨p, hp, List.mem_cons_self _ _⟩
    · obtain ⟨p, hp, rfl⟩ := List.mem_map.mp hx
      exact ⟨p, hp, List.mem_cons_of_mem _ (List.mem_singleton.mpr rfl)⟩

/-- Positions of the converted pair list are the converted positions. -/
theorem posN_pairsToNat (T : List (Int × Int)) :
    posN (pairsToNat T) = (posI T).map Int.toNat := by
  induction T with
  | nil => rfl
  | cons p T ih =>
    simp only [pairsToNat, posN, posI, List.map_cons, List.flatMap_cons,
      List.map_append] at ih ⊢
    rw [ih]
    rfl

/-- `pairWrites` over emitted pairs is `natWrites` over the converted list. -/
theorem pairWrites_eq (T : List (Int × Int)) :
    pairWrites T = natWrites (pairsToNat T) := by
  induction T with
  | nil => rfl
  | cons p T ih =>
    simp only [pairWrites, natWrites, pairsToNat, List.map_cons,
      List.flatMap_cons] at ih ⊢
    rw [ih]

/-- The write positions are exactly the pair positions. -/
theorem natWrites_map_fst (P : List (Nat × Nat)) :
    (natWrites P).map Prod.fst = posN P := by
  induction P with
  | nil => rfl
  | cons p P ih =>
    simp only [natWrites, posN, List.flatMap_cons, List.map_append] at ih ⊢
    rw [ih]
    rfl

/-- Each pair contributes its opening write. -/
theorem natWrites_mem_open (P : List (Nat × Nat)) (p : Nat × Nat)
    (hp : p ∈ P) : (p.1, '(') ∈ natWrites P := by
  unfold natWrites
  rw [List.mem_flatMap]
  exact ⟨p, hp, List.mem_cons_self _ _⟩

/-- Each pair contributes its closing write. -/
theorem natWrites_mem_close (P : List (Nat × Nat)) (p : Nat × Nat)
    (hp : p ∈ P) : (p.2, ')') ∈ natWrites P := by
  unfold natWrites
  rw [List.mem_flatMap]
  exact ⟨p, hp, List.mem_cons_of_mem _ (List.mem_singleton.mpr rfl)⟩

/-- Contents of the written array, position by position. -/
theorem render_getElem (P : List (Nat × Nat)) (n : Nat)
    (hnd : (posN P).Nodup) (q : Nat) :
    (applyWrites (List.replicate n '.') (natWrites P))[q]? =
      if q < n then some (renderF P q) else none := by
  by_cases hq : q < n
  · rw [if_pos hq]
    unfold renderF
    by_cases h1 : q ∈ P.map Prod.fst
    · rw [if_pos h1]
      obtain ⟨p, hp, hqe⟩ := List.mem_map.mp h1
      refine applyWrites_getElem?_mem _ _ _ _
        (by rw [natWrites_map_fst]; exact hnd) ?_
        (by rw [List.length_replicate]; exact hq)
      rw [← hqe]
      exact natWrites_mem_open P p hp
    · rw [if_neg h1]
      by_cases h2 : q ∈ P.map Prod.snd
      · rw [if_pos h2]
        obtain ⟨p, hp, hqe⟩ := List.mem_map.mp h2
        refine applyWrites_getElem?_mem _ _ _ _
          (by rw [natWrites_map_fst]; exact hnd) ?_
          (by rw [List.length_replicate]; exact hq)
        rw [← hqe]
        exact natWrites_mem_close P p hp
      · rw [if_neg h2,
          applyWrites_getElem?_not_mem _ _ _ (by
            rw [natWrites_map_fst]
            intro hmem
            rcases (posN_mem q P).mp hmem with h | h
            · exact h1 h
            · exact h2 h),
          List.getElem?_replicate, if_pos hq]
  · rw [if_neg hq]
    rw [List.getElem?_eq_none]
    rw [applyWrites_length, List.length_replicate]
    omega

/-- The written array is the pointwise rendering of the pair list. -/
theorem render_eq_map (P : List (Nat × Nat)) (n : Nat)
    (hnd : (posN P).Nodup) :
    applyWrites (List.replicate n '.') (natWrites P) =
      (List.range n).map (renderF P) := by
  apply List.ext_getElem?
  intro q
  rw [render_getElem P n hnd q, List.getElem?_map]
  by_cases hq : q < n
  · rw [if_pos hq, List.getElem?_range hq]
    rfl
  · rw [if_neg hq, List.getElem?_eq_none (by rw [List.length_range]; omega)]
    rfl

/-- Counting a character over a rendered range is counting the matching
positions. -/
theorem count_map_range (f : Nat → Char) (c : Char) (n : Nat) :
    ((List.range n).map f).count c =
      ((List.range n).filter (fun q => f q == c)).length := by
  rw [List.count_eq_countP, List.countP_map, List.countP_eq_length_filter]
  rfl

/-- In a duplicate-free position list, no position is both an opener and a
closer. -/
theorem posN_not_both (P : List (Nat × Nat)) (hnd : (posN P).Nodup) (q : Nat)
    (h1 : q ∈ P.map Prod.fst) (h2 : q ∈ P.map Prod.snd) : False := by
  induction P with
  | nil => cases h1
  | cons p rest ih =>
    have hcons : posN (p :: rest) = p.1 :: p.2 :: posN rest := rfl
    rw [hcons] at hnd
    obtain ⟨hh1, hnd'⟩ := List.nodup_cons.mp hnd
    obtain ⟨hh2, hnd''⟩ := List.nodup_cons.mp hnd'
    rw [List.map_cons, List.mem_cons] at h1 h2
    rcases h1 with he1 | h1'
    · rcases h2 with he2 | h2'
      · exact hh1 (by rw [← he1, he2]; exact List.mem_cons_self _ _)
      · exact hh1 (by
          rw [← he1]
          exact List.mem_cons_of_mem _ ((posN_mem q rest).mpr (Or.inr h2')))
    · rcases h2 with he2 | h2'
      · exact hh2 (by rw [← he2]; exact (posN_mem q rest).mpr (Or.inl h1'))
      · exact ih hnd'' h1' h2'

/-- Duplicate-free positions give duplicate-free opener and closer lists. -/
theorem posN_nodup_parts (P : List (Nat × Nat)) (hnd : (posN P).Nodup) :
    (P.map Prod.fst).Nodup ∧ (P.map Prod.snd).Nodup := by
  induction P with
  | nil => exact ⟨List.Pairwise.nil, List.Pairwise.nil⟩
  | cons p rest ih =>
    have hcons : posN (p :: rest) = p.1 :: p.2 :: posN rest := rfl
    rw [hcons] at hnd
    obtain ⟨hh1, hnd'⟩ := List.nodup_cons.mp hnd
    obtain ⟨hh2, hnd''⟩ := List.nodup_cons.mp hnd'
    obtain ⟨ihf, ihs⟩ := ih hnd''
    constructor
    · rw [List.map_cons]
      refine List.nodup_cons.mpr ⟨?_, ihf⟩
      intro hmem
      exact hh1 (List.mem_cons_of_mem _ ((posN_mem _ rest).mpr (Or.inl hmem)))
    · rw [List.map_cons]
      refine List.nodup_cons.mpr ⟨?_, ihs⟩
      intro hmem
      exact hh2 ((posN_mem _ rest).mpr (Or.inr hmem))

/-- Counting range members of a duplicate-free list by filtering the list. -/
theorem length_filter_range_mem (xs : List Nat) (m : Nat) (hnd : xs.Nodup) :
    ((List.range m).filter (fun q => decide (q ∈ xs))).length =
      (xs.filter (fun x => decide (x < m))).length := by
  classical
  have h1 : ((List.range m).filter (fun q => decide (q ∈ xs))).Nodup :=
    (List.nodup_range m).filter _
  have h2 : (xs.filter (fun x => decide (x < m))).Nodup := hnd.filter _
  have h3 : ((List.range m).filter (fun q => decide (q ∈ xs))).toFinset =
      (xs.filter (fun x => decide (x < m))).toFinset := by
    ext a
    simp only [List.mem_toFinset, List.mem_filter, List.mem_range,
      decide_eq_true_eq]
    exact ⟨fun ⟨ha, hb⟩ => ⟨hb, ha⟩, fun ⟨ha, hb⟩ => ⟨hb, ha⟩⟩
  rw [← List.toFinset_card_of_nodup h1, ← List.toFinset_card_of_nodup h2, h3]

/-- The rendered string has one `'('` per pair. -/
theorem count_render_open (P : List (Nat × Nat)) (n : Nat)
    (hnd : (posN P).Nodup) (hb : ∀ x ∈ posN P, x < n) :
    ((List.range n).map (renderF P)).count '(' = P.length := by
  rw [count_map_range]
  have hcong : (List.range n).filter (fun q => renderF P q == '(') =
      (List.range n).filter (fun q => decide (q ∈ P.map Prod.fst)) := by
    apply List.filter_congr
    intro q _
    by_cases hmem : q ∈ P.map Prod.fst
    · simp [renderF, hmem]
    · by_cases hmem2 : q ∈ P.map Prod.snd <;> simp [renderF, hmem, hmem2]
  rw [hcong, length_filter_range_mem _ _ (posN_nodup_parts P hnd).1]
  have hall : (P.map Prod.fst).filter (fun x => decide (x < n)) =
      P.map Prod.fst := by
    rw [List.filter_eq_self]
    intro a ha
    have : a ∈ posN P := (posN_mem a P).mpr (Or.inl ha)
    simpa using hb a this
  rw [hall, List.length_map]

/-- The rendered string has one `')'` per pair. -/
theorem count_render_close (P : List (Nat × Nat)) (n : Nat)
    (hnd : (posN P).Nodup) (hb : ∀ x ∈ posN P, x < n) :
    ((List.range n).map (renderF P)).count ')' = P.length := by
  rw [count_map_range]
  have hcong : (List.range n).filter (fun q => renderF P q == ')') =
      (List.range n).filter (fun q => decide (q ∈ P.map Prod.snd)) := by
    apply List.filter_congr
    intro q _
    by_cases hmem : q ∈ P.map Prod.fst
    · have hnot : q ∉ P.map Prod.snd := fun h2 => posN_not_both P hnd q hmem h2
      simp [renderF, hmem, hnot]
    · by_cases hmem2 : q ∈ P.map Prod.snd <;> simp [renderF, hmem, hmem2]
  rw [hcong, length_filter_range_mem _ _ (posN_nodup_parts P hnd).2]
  have hall : (P.map Prod.snd).filter (fun x => decide (x < n)) =
      P.map Prod.snd := by
    rw [List.filter_eq_self]
    intro a ha
    have : a ∈ posN P := (posN_mem a P).mpr (Or.inr ha)
    simpa using hb a this
  rw [hall, List.length_map]

/-- Prefix balance of the rendered string: in every prefix, closers never
outnumber openers, because every pair opens before it closes. -/
theorem count_render_take (P : List (Nat × Nat)) (n : Nat)
    (hnd : (posN P).Nodup) (hpair : ∀ p ∈ P, p.1 < p.2) (q : Nat) :
    (((List.range n).map (renderF P)).take q).count ')' ≤
      (((List.range n).map (renderF P)).take q).count '(' := by
  rw [← List.map_take, List.take_range]
  have hopen : ((List.range (min q n)).map (renderF P)).count '(' =
      (P.filter (fun p => decide (p.1 < min q n))).length := by
    rw [count_map_range]
    have hcong : (List.range (min q n)).filter (fun x => renderF P x == '(') =
        (List.range (min q n)).filter (fun x => decide (x ∈ P.map Prod.fst)) := by
      apply List.filter_congr
      intro x _
      by_cases hmem : x ∈ P.map Prod.fst
      · simp [renderF, hmem]
      · by_cases hmem2 : x ∈ P.map Prod.snd <;> simp [renderF, hmem, hmem2]
    rw [hcong, length_filter_range_mem _ _ (posN_nodup_parts P hnd).1,
      List.filter_map, List.length_map]
    rfl
  have hclose : ((List.range (min q n)).map (renderF P)).count ')' =
      (P.filter (fun p => decide (p.2 < min q n))).length := by
    rw [count_map_range]
    have hcong : (List.range (min q n)).filter (fun x => renderF P x == ')') =
        (List.range (min q n)).filter (fun x => decide (x ∈ P.map Prod.snd)) := by
      apply List.filter_congr
      intro x _
      by_cases hmem : x ∈ P.map Prod.fst
      · have hnot : x ∉ P.map Prod.snd := fun h2 => posN_not_both P hnd x hmem h2
        simp [renderF, hmem, hnot]
      · by_cases hmem2 : x ∈ P.map Prod.snd <;> simp [renderF, hmem, hmem2]
    rw [hcong, length_filter_range_mem _ _ (posN_nodup_parts P hnd).2,
      List.filter_map, List.length_map]
    rfl
  rw [hopen, hclose, ← List.countP_eq_length_filter,
    ← List.countP_eq_length_filter]
  apply List.countP_mono_left
  intro p hp hcl
  have := hpair p hp
  simp only [decide_eq_true_eq] at hcl ⊢
  omega

/-- Counting invariant of `_get_base_pairs`: as long as every consumed
prefix keeps closers within the stack budget, the parser pairs every closer
and the stack tracks the bracket surplus. -/
theorem gbpFold_counts :
    ∀ (l : List Char) (k : Nat) (ps : List (Nat × Nat)) (st : List Nat),
      (∀ q, ((l.take q).count ')') ≤ st.length + (l.take q).count '(') →
      ((List.foldl gbpStep (ps, st) (l.enumFrom k)).1.length =
          ps.length + l.count ')' ∧
        (List.foldl gbpStep (ps, st) (l.enumFrom k)).2.length + l.count ')' =
          st.length + l.count '(') := by
  intro l
  induction l with
  | nil =>
    intro k ps st _
    constructor <;> rfl
  | cons c rest ih =>
    intro k ps st hbal
    have henum : (c :: rest).enumFrom k = (k, c) :: rest.enumFrom (k + 1) := rfl
    rw [henum, List.foldl_cons]
    have hcc : ∀ q, (c :: rest).take (q + 1) = c :: rest.take q := fun q => rfl
    by_cases hop : c = '('
    · subst hop
      have hstep : gbpStep (ps, st) (k, '(') = (ps, k :: st) := by
        simp [gbpStep]
      rw [hstep]
      have hbal' : ∀ q, ((rest.take q).count ')') ≤
          (k :: st).length + (rest.take q).count '(' := by
        intro q
        have hb := hbal (q + 1)
        rw [hcc q] at hb
        simp only [List.count_cons, List.length_cons] at hb ⊢
        norm_num at hb
        omega
      obtain ⟨h1, h2⟩ := ih (k + 1) ps (k :: st) hbal'
      have e1 : List.count ')' ('(' :: rest) = List.count ')' rest := by
        simp [List.count_cons]
      have e2 : List.count '(' ('(' :: rest) = List.count '(' rest + 1 := by
        simp [List.count_cons]
      have e3 : (k :: st).length = st.length + 1 := rfl
      constructor
      · rw [h1, e1]
      · rw [e1, e2]
        omega
    · by_cases hcl : c = ')'
      · subst hcl
        have hne : st ≠ [] := by
          intro hnil
          have hb := hbal 1
          rw [show (')' :: rest).take 1 = [')'] from rfl, hnil] at hb
          simp [List.count_cons] at hb
        cases st with
        | nil => exact absurd rfl hne
        | cons x st' =>
          have hstep : gbpStep (ps, x :: st') (k, ')') = (ps ++ [(x, k)], st') := by
            simp [gbpStep]
          rw [hstep]
          have hbal' : ∀ q, ((rest.take q).count ')') ≤
              st'.length + (rest.take q).count '(' := by
            intro q
            have hb := hbal (q + 1)
            rw [hcc q] at hb
            simp [List.count_cons, List.length_cons] at hb
            omega
          obtain ⟨h1, h2⟩ := ih (k + 1) (ps ++ [(x, k)]) st' hbal'
          have e1 : List.count ')' (')' :: rest) = List.count ')' rest + 1 := by
            simp [List.count_cons]
          have e2 : List.count '(' (')' :: rest) = List.count '(' rest := by
            simp [List.count_cons]
          have e3 : (ps ++ [(x, k)]).length = ps.length + 1 := by
            rw [List.length_append]
            rfl
          have e4 : (x :: st').length = st'.length + 1 := rfl
          constructor
          · rw [h1, e1]
            omega
          · rw [e1, e2]
            omega
      · have hbne1 : (c == ')') = false := by
          rw [beq_eq_false_iff_ne]; exact hcl
        have hbne2 : (c == '(') = false := by
          rw [beq_eq_false_iff_ne]; exact hop
        have hstep : gbpStep (ps, st) (k, c) = (ps, st) := by
          simp [gbpStep, hop, hcl]
        rw [hstep]
        have hbal' : ∀ q, ((rest.take q).count ')') ≤
            st.length + (rest.take q).count '(' := by
          intro q
          have hb := hbal (q + 1)
          rw [hcc q] at hb
          simp only [List.count_cons, hbne1, hbne2] at hb
          simpa using hb
        obtain ⟨h1, h2⟩ := ih (k + 1) ps st hbal'
        have e1 : List.count ')' (c :: rest) = List.count ')' rest := by
          simp [List.count_cons, hbne1]
        have e2 : List.count '(' (c :: rest) = List.count '(' rest := by
          simp [List.count_cons, hbne2]
        constructor
        · rw [h1, e1]
        · rw [e1, e2]
          omega

/-- A balanced string is fully resolved by the stack parse: the stack ends
empty and the emitted pairs number the closing brackets. -/
theorem gbpRun_resolve (l : List Char)
    (hbal : ∀ q, ((l.take q).count ')') ≤ (l.take q).count '(')
    (heq : l.count '(' = l.count ')') :
    (gbpRun l).2 = [] ∧ (gbpRun l).1.length = l.count ')' := by
  have h := gbpFold_counts l 0 [] []
    (by intro q; have := hbal q; simpa using this)
  have henum : l.enum = l.enumFrom 0 := rfl
  unfold gbpRun
  rw [henum]
  refine ⟨?_, by simpa using h.1⟩
  have h2 := h.2
  rw [← List.length_eq_zero]
  simp only [List.length_nil] at h2
  omega

/-! ## Claim theorems -/

/-- C1: the spec's worked example fails on the code.  For "GGGGCCCC" the
implementation returns structure "((..).)." with 2 base pairs and
`matrix[0][7] = 2` (the pairing loop `for k in range(i, j)` never considers
pairing position `i` with `j`, so the claimed "(((())))" / 4 is unreachable). -/
theorem claim_C1_eval :
    predictStructure "GGGGCCCC".data =
      some { sequence := "GGGGCCCC".data, structure' := "((..).).".data,
             base_pairs := 2, length := 8 } ∧
    nussinov "GGGGCCCC".data 0 7 = 2 := by
  constructor
  · rfl
  · rfl

/-- C2: the score matrix undercounts.  On "GC" the bases at positions 0 and 1
are complementary (`can_pair('G','C')`), so the maximum properly nested
pairing of positions 0..1 has one pair, yet `matrix[0][1] = 0`: the inner
loop `for k in range(i, j)` excludes `k = j`, so the pair `(0,1)` is never
scored. -/
theorem claim_C2_eval :
    nussinov "GC".data 0 1 = 0 ∧ canPair 'G' 'C' = true := by
  constructor
  · rfl
  · rfl

/-- C3 counterexample: on the empty sequence `predict_structure` raises
(`int(dp[0][-1])` indexes row 0 of a 0×0 matrix), so "raises no error for
length 0" is false. -/
theorem claim_C3_counterexample : predictStructure "".data = none := rfl

/-- C3 amended: every sequence of length 1 yields the all-dot structure of
length 1 with 0 base pairs and no error; the empty sequence instead raises an
IndexError. -/
theorem claim_C3_amended (s : List Char) (h : s.length = 1) :
    predictStructure s =
      some { sequence := s
             structure' := ['.']
             base_pairs := 0
             length := 1 } := by
  cases s with
  | nil => simp at h
  | cons c t =>
    cases t with
    | nil => rfl
    | cons d u => simp at h

/-- C3 amended, witnessed at the concrete one-letter sequence "A". -/
theorem claim_C3_amended_witness :
    predictStructure ['A'] =
      some { sequence := ['A']
             structure' := ['.']
             base_pairs := 0
             length := 1 } :=
  claim_C3_amended ['A'] rfl

/-- C6: summarizing zero records is an error, not a silently propagated NaN
summary: the `max_complexity` field evaluates Python `max([])`, which raises
`ValueError: max() arg is an empty sequence` before any summary is returned
(the NaN `np.mean([])` is computed but never escapes). -/
theorem claim_C6_empty_summarize :
    summarizeKnotRegions [] = Except.error "max() arg is an empty sequence" := rfl

/-- C8: the risk tiers are exclusive upper bounds on the complexity score:
LOW iff score < 0.1, MEDIUM iff 0.1 ≤ score < 0.2, HIGH iff
0.2 ≤ score < 0.3, CRITICAL iff 0.3 ≤ score; so a score of exactly 0.1 is
MEDIUM, exactly 0.2 is HIGH and exactly 0.3 is CRITICAL. -/
theorem claim_C8_risk_tiers (structure' : List Char) :
    ((detectKnotsDefault structure').risk_level = "LOW" ↔
      (detectKnotsDefault structure').complexity_score < 1 / 10) ∧
    ((detectKnotsDefault structure').risk_level = "MEDIUM" ↔
      1 / 10 ≤ (detectKnotsDefault structure').complexity_score ∧
        (detectKnotsDefault structure').complexity_score < 2 / 10) ∧
    ((detectKnotsDefault structure').risk_level = "HIGH" ↔
      2 / 10 ≤ (detectKnotsDefault structure').complexity_score ∧
        (detectKnotsDefault structure').complexity_score < 3 / 10) ∧
    ((detectKnotsDefault structure').risk_level = "CRITICAL" ↔
      3 / 10 ≤ (detectKnotsDefault structure').complexity_score) := by
  have hs : (detectKnotsDefault structure').complexity_score =
      complexityOf structure' := complexity_score_eq _ _ _
  have hr : (detectKnotsDefault structure').risk_level =
      riskLevelOf (complexityOf structure') := rfl
  rw [hs, hr]
  exact riskLevelOf_cases (complexityOf structure')

/-- C9: `knot_prone` is exactly the disjunction
`|writhe| ≥ writhe_threshold ∨ crossing_count ≥ crossing_threshold`, and with
the default thresholds 8.0 and 2 the boolean fires at writhe 8.0 / 0
crossings, fires at writhe 0 / 2 crossings, and does not fire at writhe 7.9 /
1 crossing. -/
theorem claim_C9_knot_prone :
    (∀ (wt : ℚ) (ct : Nat) (structure' : List Char),
      (detectKnots wt ct structure').knot_prone =
        knotProneOf wt ct (computeWrithe structure')
          (identifyCrossingPatterns structure').length ∧
      (knotProneOf wt ct (computeWrithe structure')
          (identifyCrossingPatterns structure').length = true ↔
        wt ≤ |computeWrithe structure'| ∨
          ct ≤ (identifyCrossingPatterns structure').length)) ∧
    knotProneOf 8 2 8 0 = true ∧
    knotProneOf 8 2 0 2 = true ∧
    knotProneOf 8 2 (79 / 10) 1 = false := by
  refine ⟨fun wt ct structure' => ⟨rfl, ?_⟩, ?_, ?_, ?_⟩
  · simp [knotProneOf]
  · simp [knotProneOf]
  · simp [knotProneOf]
  · simp [knotProneOf]
    have habs : |(79 / 10 : ℚ)| = 79 / 10 := abs_of_pos (by norm_num)
    rw [habs]
    norm_num

/-- C10: `compute_writhe` is identically 0 (every `')'` pops a rank equal to
the stack index it was pushed at, so each depth delta is 0); consequently the
writhe criterion of `knot_prone` can never fire and `knot_prone` reduces to
the crossing-count criterion alone. -/
theorem claim_C10_writhe_zero (structure' : List Char) :
    computeWrithe structure' = 0 ∧
    (detectKnotsDefault structure').knot_prone =
      decide (2 ≤ (identifyCrossingPatterns structure').length) := by
  refine ⟨computeWrithe_eq_zero structure', ?_⟩
  show knotProneOf 8 2 (computeWrithe structure') _ = _
  rw [computeWrithe_eq_zero structure']
  simp [knotProneOf]

/-- C4: every structure returned by `predict_structure` has the sequence's
length; its `'('` and `')'` counts both equal the reported base-pair count;
and the stack parse resolves every bracket (the final stack is empty and the
parse recovers exactly `base_pairs` pairs, so the pairing is properly
nested). -/
theorem claim_C4_wellformed (s : List Char) (r : PredResult)
    (h : predictStructure s = some r) :
    r.structure'.length = s.length ∧
    r.structure'.count '(' = r.base_pairs ∧
    r.structure'.count ')' = r.base_pairs ∧
    (gbpRun r.structure').2 = [] ∧
    (gbpRun r.structure').1.length = r.base_pairs := by
  have hn : s.length ≠ 0 := by
    intro h0
    rw [predictStructure, if_pos h0] at h
    cases h
  rw [predictStructure_some s hn] at h
  have hr := Option.some.inj h
  subst hr
  dsimp only
  obtain ⟨hbnd, hlen, hnodupI⟩ := tbPairs_main s s.length 0
    ((s.length : Int) - 1) (by omega) (by omega) (by omega)
  set T := tbPairs s 0 ((s.length : Int) - 1) with hT
  set P := pairsToNat T with hP
  have hposIb := posI_bounds T 0 ((s.length : Int) - 1) hbnd
  have hndN : (posN P).Nodup := by
    rw [hP, posN_pairsToNat]
    refine List.Nodup.map_on ?_ hnodupI
    intro x hx y hy hxy
    have h1 := hposIb x hx
    have h2 := hposIb y hy
    omega
  have hbN : ∀ x ∈ posN P, x < s.length := by
    rw [hP, posN_pairsToNat]
    intro x hx
    obtain ⟨y, hy, rfl⟩ := List.mem_map.mp hx
    have := hposIb y hy
    omega
  have hPpair : ∀ p ∈ P, p.1 < p.2 := by
    rw [hP]
    intro p hp
    obtain ⟨q, hq, rfl⟩ := List.mem_map.mp hp
    have h1 := hbnd q hq
    show q.1.toNat < q.2.toNat
    omega
  have hPlen : P.length = nussinov s 0 (s.length - 1) := by
    have harg : ((s.length : Int) - 1).toNat = s.length - 1 := by omega
    rw [hP, pairsToNat, List.length_map, hlen, harg]
    rfl
  have hstr : traceback s 0 ((s.length : Int) - 1) =
      (List.range s.length).map (renderF P) := by
    rw [traceback, if_neg (by omega : ¬(0 : Int) > (s.length : Int) - 1),
      ← hT, pairWrites_eq, ← hP]
    exact render_eq_map P s.length hndN
  have hopen := count_render_open P s.length hndN hbN
  have hclose := count_render_close P s.length hndN hbN
  have hres := gbpRun_resolve ((List.range s.length).map (renderF P))
    (count_render_take P s.length hndN hPpair)
    (by rw [hopen, hclose])
  refine ⟨?_, ?_, ?_, ?_, ?_⟩
  · rw [hstr, List.length_map, List.length_range]
  · rw [hstr, hopen, hPlen]
  · rw [hstr, hclose, hPlen]
  · rw [hstr]
    exact hres.1
  · rw [hstr, hres.2, hclose, hPlen]

/-- C4 witnessed at "GGGGCCCC": the returned structure "((..).)." has length
8, two balanced bracket pairs matching the reported count, and an empty
final parse stack. -/
theorem claim_C4_witness :
    ∃ r, predictStructure "GGGGCCCC".data = some r ∧
      r.structure'.length = 8 ∧ r.structure'.count '(' = r.base_pairs ∧
      (gbpRun r.structure').2 = [] := by
  refine ⟨_, rfl, ?_, ?_, ?_⟩
  · have h := (claim_C4_wellformed "GGGGCCCC".data _ rfl).1
    rw [h]
    rfl
  · exact (claim_C4_wellformed "GGGGCCCC".data _ rfl).2.1
  · exact (claim_C4_wellformed "GGGGCCCC".data _ rfl).2.2.2.1

/-- C5: the crossing detector on `predict_structure` output always returns
the empty list: the structure's base pairs come from a stack parse, whose
pair sets are always properly nested. -/
theorem claim_C5_noncrossing (s : List Char) (r : PredResult)
    (_h : predictStructure s = some r) :
    identifyCrossingPatterns r.structure' = [] :=
  identifyCrossingPatterns_eq_nil r.structure'

/-- C5 witnessed at "GC": the prediction succeeds and its structure yields no
crossings. -/
theorem claim_C5_witness :
    ∃ r, predictStructure "GC".data = some r ∧
      identifyCrossingPatterns r.structure' = [] :=
  ⟨_, rfl, claim_C5_noncrossing "GC".data _ rfl⟩

/-- C7: with a positive window size and stride, the sliding-window scan
succeeds, its window starts are exactly `range(0, len - window, stride)` —
the multiples of the stride with `start + window < len` strictly — every
window has exactly the configured length, and a sequence no longer than the
window produces zero windows. -/
theorem claim_C7_sliding_window (s : List Char) (w st : Nat)
    (hw : 1 ≤ w) (hst : 1 ≤ st) :
    ∃ res, slidingWindowPrediction s w st = some res ∧
      res.map (fun r => r.window_start) = pyRange 0 (s.length - w) st ∧
      (∀ v : Nat, v ∈ pyRange 0 (s.length - w) st ↔
        (∃ t, v = st * t) ∧ v + w < s.length) ∧
      (∀ r ∈ res, r.pred.sequence.length = w ∧
        r.window_end = r.window_start + w) ∧
      (s.length ≤ w → res = []) := by
  have hmemiff : ∀ v : Nat, v ∈ pyRange 0 (s.length - w) st ↔
      (∃ t, v = st * t) ∧ v + w < s.length := by
    intro v
    rw [pyRange_mem _ _ hst]
    constructor
    · rintro ⟨ht, hlt⟩; exact ⟨ht, by omega⟩
    · rintro ⟨ht, hlt⟩; exact ⟨ht, by omega⟩
  have hwin : ∀ i ∈ pyRange 0 (s.length - w) st,
      ((s.drop i).take w).length = w := by
    intro i hi
    have hlt : i + w < s.length := ((hmemiff i).mp hi).2
    simp only [List.length_take, List.length_drop]
    omega
  obtain ⟨res, hres, hrel⟩ := mapM_option_some
    (fun i => (predictStructure ((s.drop i).take w)).map
      (fun p => (⟨p, i, i + w⟩ : WindowPred)))
    (pyRange 0 (s.length - w) st)
    (by
      intro i hi
      dsimp only
      rw [predictStructure_some _ (by rw [hwin i hi]; omega)]
      exact ⟨_, rfl⟩)
  have hrelspec : ∀ (i : Nat) (r : WindowPred),
      (fun i => (predictStructure ((s.drop i).take w)).map
        (fun p => (⟨p, i, i + w⟩ : WindowPred))) i = some r →
      r.window_start = i ∧ r.window_end = i + w ∧
        r.pred.sequence = (s.drop i).take w := by
    intro i r hr
    simp only [Option.map_eq_some'] at hr
    obtain ⟨p, hp, rfl⟩ := hr
    rw [predictStructure_some _
      (by
        intro h0
        rw [predictStructure] at hp
        rw [if_pos h0] at hp
        cases hp)] at hp
    refine ⟨rfl, rfl, ?_⟩
    cases Option.some.inj hp
    rfl
  refine ⟨res, hres, ?_, hmemiff, ?_, ?_⟩
  · exact forall₂_map_eq _ (fun a b hb => (hrelspec a b hb).1) hrel
  · intro r hr
    obtain ⟨i, hi, hfi⟩ := forall₂_mem_right hrel r hr
    obtain ⟨h1, h2, h3⟩ := hrelspec i r hfi
    refine ⟨by rw [h3]; exact hwin i hi, by rw [h1, h2]⟩
  · intro hle
    have hstop : s.length - w = 0 := by omega
    rw [hstop] at hres
    have : pyRange 0 0 st = [] := rfl
    rw [this] at hres
    have : (([] : List Nat).mapM
        (fun i => (predictStructure ((s.drop i).take w)).map
          (fun p => (⟨p, i, i + w⟩ : WindowPred)))) = some [] := rfl
    rw [this] at hres
    exact (Option.some.inj hres).symm

/-- C7 witnessed at "GCGC" with window size 2 and stride 2: the scan
succeeds and starts exactly at offset 0 (offset 2 would end at the sequence
end, which the strict bound excludes). -/
theorem claim_C7_witness :
    ∃ res, slidingWindowPrediction "GCGC".data 2 2 = some res ∧
      res.map (fun r => r.window_start) = pyRange 0 2 2 := by
  obtain ⟨res, h1, h2, _⟩ :=
    claim_C7_sliding_window "GCGC".data 2 2 (by norm_num) (by norm_num)
  exact ⟨res, h1, h2⟩

end SSP
